import Mathlib

/-!
Shallow embedding of the crossword CSP solver in `src/generate.py`
(class `CrosswordCreator`).

The solver's collaborator module `crossword.py` (class `Crossword` with
`variables`, `words`, `overlaps`, `neighbors`, and class `Variable`) is not
part of `src/`; its data model is modelled from the spec (sections 2 and 3):
a slot is identified by row, column, direction and length, the crossing map
gives for each ordered pair of slots either no entry or a pair of character
offsets, and the neighbors of a slot are the slots crossing it.

Python dictionaries are modelled as association lists in insertion order,
sets of words as lists, and the mutable domain store `self.domains` as a
function from slots to word lists.  Python exceptions (the `TypeError`
raised on line 134 of `generate.py` when a `None` overlap is unpacked) and
fuel exhaustion of the loop embeddings surface as `none`; a normally
returned value `r` surfaces as `some r`.
-/

namespace CrosswordCSP

/-- Modelled from the spec (section 3): a word is a string, viewed as its
list of characters. -/
abbrev Word := List Char

/-- Modelled from the spec (section 3): slot direction, one of ACROSS or
DOWN. -/
inductive Direction where
  | across : Direction
  | down : Direction
deriving DecidableEq

/-- Modelled from the spec (section 3): a slot (CSP variable) is identified
by (row, column, direction, length); two slots are equal iff all four fields
match.  This models class `Variable` of the absent `crossword.py`. -/
structure Slot where
  row : Nat
  col : Nat
  dir : Direction
  length : Nat
deriving DecidableEq

/-- Modelled from the spec (sections 2, 3, 6): the puzzle model consumed by
the solver — the slot list (`crossword.variables`), the candidate word set
(`crossword.words`) and the crossing map (`crossword.overlaps`, `none` when
the two slots share no cell).  This models class `Crossword` of the absent
`crossword.py`. -/
structure Puzzle where
  vars : List Slot
  words : List Word
  overlaps : Slot → Slot → Option (Nat × Nat)

/-- The mutable domain store `self.domains`: each slot's current candidate
word list. -/
abbrev Domains := Slot → List Word

/-- An assignment: a Python dict from slots to words, modelled as an
association list in insertion order. -/
abbrev Assignment := List (Slot × Word)

/-- Character access `w[i]`.  The solver only indexes at crossing offsets,
which lie inside the word for well-formed crossing maps; out of range we
return a dummy character (Python would raise IndexError there). -/
def charAt (w : Word) (i : Nat) : Char := w.getD i '?'

/-- Modelled from the spec (section 4.1 and glossary): `crossword.neighbors(v)`
returns the slots crossing `v`, that is the other slots whose crossing-map
entry with `v` is present. -/
def neighbors (p : Puzzle) (v : Slot) : List Slot :=
  p.vars.filter (fun u => !(u == v) && (p.overlaps v u).isSome)

/-- Membership test `var in assignment` on the dict's keys. -/
def hasKey (a : Assignment) (v : Slot) : Bool :=
  a.any (fun pr => pr.1 == v)

/-- Dict lookup `assignment[var]`, as an `Option`. -/
def lookupWord (a : Assignment) (v : Slot) : Option Word :=
  (a.find? (fun pr => pr.1 == v)).map Prod.snd

/-- The keys of an assignment, in insertion order. -/
def keys (a : Assignment) : List Slot := a.map Prod.fst

/-- Point update of the domain store (the effect of removals from
`self.domains[x]`). -/
def updateDom (dom : Domains) (x : Slot) (l : List Word) : Domains :=
  fun v => if v = x then l else dom v

/-- Lines 14-17 of `generate.py` (`__init__`): every slot's initial domain is
a copy of the full word list. -/
def initial_domains (p : Puzzle) : Domains := fun _ => p.words

/-- Lines 97-115 of `generate.py`: `enforce_node_consistency` removes from
each slot's domain exactly the words whose length differs from the slot's
length (iterating a deep copy while removing from the live store, which
amounts to filtering each domain). -/
def enforce_node_consistency (dom : Domains) : Domains :=
  fun v => (dom v).filter (fun w => w.length == v.length)

/-- Lines 118-157 of `generate.py`: `revise(x, y)`.  Line 134 unpacks
`self.crossword.overlaps[x, y]`; when that entry is `None` Python raises
`TypeError` (modelled as `none`).  Line 137 reads `if x_overlap:` — integer
truthiness — so when the x-side offset is `0` the whole revision loop is
skipped and `(False, unchanged domains)` is returned.  Otherwise every word
of `x`'s domain with no agreeing word in `y`'s domain is removed, and the
returned Boolean records whether any removal happened. -/
def revise (p : Puzzle) (dom : Domains) (x y : Slot) : Option (Bool × Domains) :=
  match p.overlaps x y with
  | none => none
  | some (xo, yo) =>
    if xo = 0 then
      some (false, dom)
    else
      some (((dom x).any (fun wx => !((dom y).any (fun wy => charAt wx xo == charAt wy yo))),
             updateDom dom x ((dom x).filter
               (fun wx => (dom y).any (fun wy => charAt wx xo == charAt wy yo)))))

/-- Lines 169-175 of `generate.py`: the initial arc list built when `ac3` is
called with `arcs=None` — every ordered pair `(v1, v2)` with `v2` a neighbor
of `v1` and a present crossing-map entry. -/
def initial_arcs (p : Puzzle) : List (Slot × Slot) :=
  p.vars.flatMap (fun v1 =>
    ((neighbors p v1).filter (fun v2 => (p.overlaps v1 v2).isSome)).map (fun v2 => (v1, v2)))

/-- Lines 177-198 of `generate.py`: the `while` loop of `ac3`.  Python's
`queue.pop()` removes the *last* element, so the list here is the reversed
Python queue: the head is the next arc popped, and `queue.append` becomes
pushing the reversed appended run onto the front.  `fuel` bounds the number
of iterations; `none` means the fuel ran out (or `revise` raised). -/
def ac3go (p : Puzzle) : Nat → Domains → List (Slot × Slot) → Option (Bool × Domains)
  | _, dom, [] => some (true, dom)
  | 0, _, _ :: _ => none
  | fuel + 1, dom, (x, y) :: rest =>
    match revise p dom x y with
    | none => none
    | some (revised, dom2) =>
      if revised then
        if (dom2 x).length = 0 then
          some (false, dom2)
        else
          ac3go p fuel dom2
            ((((neighbors p x).filter (fun z => !(z == y))).map (fun z => (z, x))).reverse ++ rest)
      else
        ac3go p fuel dom2 rest

/-- The total size of the domain store over the puzzle's slots (used to
bound the number of `ac3` iterations). -/
def total_size (p : Puzzle) (dom : Domains) : Nat :=
  (p.vars.map (fun v => (dom v).length)).sum

/-- A fuel amount sufficient for the `ac3` loop to reach its exit
(each iteration either consumes an arc or removes a word, and each removal
enqueues at most `p.vars.length` arcs). -/
def ac3_fuel (p : Puzzle) (dom : Domains) : Nat :=
  (initial_arcs p).length + (p.vars.length + 1) * total_size p dom + 1

/-- Lines 160-198 of `generate.py`: `ac3` with no explicit arc list — run the
worklist loop on all initial arcs.  Returns `some (true, dom')` when arc
processing finished, `some (false, dom')` when a revision emptied a domain. -/
def ac3 (p : Puzzle) (fuel : Nat) (dom : Domains) : Option (Bool × Domains) :=
  ac3go p fuel dom (initial_arcs p).reverse

/-- Lines 221-228 of `generate.py`: the distinct-values check of
`consistent` — no value may occur more than once in `assignment.values()`. -/
def distinct_values (a : Assignment) : Bool :=
  (a.map Prod.snd).all (fun w => decide ((a.map Prod.snd).count w ≤ 1))

/-- Lines 230-233 of `generate.py`: the length check of `consistent` — every
bound word's length equals its slot's length. -/
def correct_lengths (a : Assignment) : Bool :=
  a.all (fun pr => pr.1.length == pr.2.length)

/-- Lines 235-242 of `generate.py`: the crossing check of `consistent` — for
every assigned slot and every assigned neighbor, the two words agree at the
crossing offsets.  (`neighbors` only lists slots with a present crossing-map
entry, so the `none` branch of the inner match is unreachable; Python
unpacks the entry directly.) -/
def no_conflicts (p : Puzzle) (a : Assignment) : Bool :=
  a.all (fun pr =>
    (neighbors p pr.1).all (fun n =>
      match lookupWord a n with
      | none => true
      | some w2 =>
        match p.overlaps pr.1 n with
        | some (i, j) => charAt pr.2 i == charAt w2 j
        | none => true))

/-- Lines 211-244 of `generate.py`: `consistent(assignment)` — all three
checks (distinct values, correct lengths, no crossing conflicts) must pass. -/
def consistent (p : Puzzle) (a : Assignment) : Bool :=
  distinct_values a && correct_lengths a && no_conflicts p a

/-- Lexicographic comparison of words, Python's `<=` on strings (used by the
builtin `sorted`). -/
def lexLe : Word → Word → Bool
  | [], _ => true
  | _ :: _, [] => false
  | a :: as, b :: bs => if a = b then lexLe as bs else decide (a < b)

/-- Stable insertion of `x` into `l`: `x` goes after every element `y` with
`le y x` (Python's stable ascending sort discipline). -/
def insertLe {α : Type} (le : α → α → Bool) (x : α) : List α → List α
  | [] => [x]
  | y :: ys => if le y x then y :: insertLe le x ys else x :: y :: ys

/-- A stable ascending sort (insertion sort), embedding Python's builtin
`sorted`. -/
def sortLe {α : Type} (le : α → α → Bool) (l : List α) : List α :=
  l.foldl (fun acc x => insertLe le x acc) []

/-- Lines 253-268 of `generate.py`: the elimination count computed by
`order_domain_values` for a candidate word — over every not-yet-assigned
neighbor, the number of its candidate words disagreeing at the crossing
offsets. -/
def ruled_out_count (p : Puzzle) (dom : Domains) (a : Assignment) (var : Slot) (w : Word) : Nat :=
  (neighbors p var).foldl
    (fun c n =>
      if hasKey a n then c
      else
        match p.overlaps var n with
        | some (i, j) => c + ((dom n).filter (fun nw => !(charAt w i == charAt nw j))).length
        | none => c)
    0

/-- Lines 246-272 of `generate.py`: `order_domain_values`.  The counts are
stored in a dict keyed by the candidate words, but line 270 runs
`sorted(ordered_values)` on the dict itself, which sorts its *keys* — the
candidate words in lexicographic order — and discards the counts.  The
result is therefore the domain of `var` sorted lexicographically. -/
def order_domain_values (p : Puzzle) (dom : Domains) (var : Slot) (a : Assignment) : List Word :=
  sortLe lexLe (dom var)

/-- Lines 274-292 of `generate.py`: `select_unassigned_variable` — the
unassigned slots sorted (stably) by current domain size, first one returned;
`none` models the IndexError of `sorted_list[0]` when every slot is
assigned. -/
def select_unassigned_variable (p : Puzzle) (dom : Domains) (a : Assignment) : Option Slot :=
  (sortLe (fun u v => decide ((dom u).length ≤ (dom v).length))
    (p.vars.filter (fun v => !(hasKey a v)))).head?

/-- Lines 309-318 of `generate.py`: the `for value in order_domain_values`
loop of `backtrack`.  `bt` is the recursive call on the extended assignment.
`some none` is Python's `return None` after exhausting the candidates,
`some (some r)` a propagated solution, and a bare `none` fuel exhaustion of
the recursion. -/
def try_values (p : Puzzle) (bt : Assignment → Option (Option Assignment))
    (a : Assignment) (var : Slot) : List Word → Option (Option Assignment)
  | [] => some none
  | w :: ws =>
    if consistent p (a ++ [(var, w)]) then
      match bt (a ++ [(var, w)]) with
      | none => none
      | some (some r) => some (some r)
      | some none => try_values p bt a var ws
    else
      try_values p bt a var ws

/-- Lines 294-319 of `generate.py`: `backtrack(assignment)`.  The assignment
is complete when its size equals the number of slots (line 304); otherwise
one unassigned slot is selected and its ordered candidates are tried.
`fuel` bounds the recursion depth (Python recurses at most once per slot);
`none` means the fuel ran out, `some none` is Python's `None`. -/
def backtrack (p : Puzzle) (dom : Domains) : Nat → Assignment → Option (Option Assignment)
  | 0, _ => none
  | fuel + 1, a =>
    if a.length = p.vars.length then
      some (some a)
    else
      match select_unassigned_variable p dom a with
      | none => none
      | some var => try_values p (backtrack p dom fuel) a var (order_domain_values p dom var a)

/-- Lines 89-95 of `generate.py`: `solve`, instrumented with a flag recording
whether `backtrack` was invoked.  Node consistency is enforced, `ac3()` is
run and its Boolean result is *ignored* (line 94), then `backtrack` is
always invoked on the empty assignment (line 95). -/
def solveTrace (p : Puzzle) : Option (Option Assignment) × Bool :=
  match ac3 p (ac3_fuel p (enforce_node_consistency (initial_domains p)))
      (enforce_node_consistency (initial_domains p)) with
  | none => (none, false)
  | some (_ignored, dom2) => (backtrack p dom2 (p.vars.length + 1) [], true)

/-- Lines 89-95 of `generate.py`: `solve` — the result part of `solveTrace`.
`some none` is Python's `None` ("no solution"), `some (some a)` a returned
assignment, `none` a fuel artifact of the embedding (never reached from
well-formed puzzles). -/
def solve (p : Puzzle) : Option (Option Assignment) :=
  (solveTrace p).1

/-- Modelled from the spec (section 3): the crossing map is symmetric — the
entries for (A,B) and (B,A) encode the same constraint with the offsets
swapped. -/
def overlapsSymm (p : Puzzle) : Prop :=
  ∀ u v i j, p.overlaps u v = some (i, j) → p.overlaps v u = some (j, i)

/-- The soundness conclusion of the backtracking search: the result is
consistent, dict-like over the puzzle's slots, and of full size. -/
def SoundResult (p : Puzzle) (r : Assignment) : Prop :=
  consistent p r = true ∧ (keys r).Nodup ∧ (∀ pr ∈ r, pr.1 ∈ p.vars)
    ∧ r.length = p.vars.length

/-- The invariant of the `ac3` worklist: every arc joins two distinct slots
of the puzzle with a present crossing-map entry. -/
def goodArcs (p : Puzzle) (q : List (Slot × Slot)) : Prop :=
  ∀ ar ∈ q, ar.1 ∈ p.vars ∧ ar.2 ∈ p.vars ∧ ar.1 ≠ ar.2
    ∧ (p.overlaps ar.1 ar.2).isSome

/-- A total solution function: every slot of the puzzle gets a word of the
candidate list, of the slot's length, pairwise distinct, agreeing at every
crossing. -/
def IsSolutionFn (p : Puzzle) (f : Slot → Word) : Prop :=
  (∀ v ∈ p.vars, f v ∈ p.words)
    ∧ (∀ v ∈ p.vars, (f v).length = v.length)
    ∧ (∀ u ∈ p.vars, ∀ v ∈ p.vars, u ≠ v → f u ≠ f v)
    ∧ (∀ u ∈ p.vars, ∀ v ∈ p.vars, ∀ i j, u ≠ v → p.overlaps u v = some (i, j) →
        charAt (f u) i = charAt (f v) j)

/- ### Concrete puzzles used as witnesses and counterexamples -/

/-- Slot A of puzzle `P1`: across, length 3. -/
def vA1 : Slot := ⟨0, 0, Direction.across, 3⟩

/-- Slot B of puzzle `P1`: down, length 3. -/
def vB1 : Slot := ⟨0, 1, Direction.down, 3⟩

/-- Puzzle `P1`: two length-3 slots crossing at offset 1 of A and offset 2
of B, word list {abc, xyz}.  No word pair agrees at the crossing, so AC-3
empties a domain. -/
def P1 : Puzzle where
  vars := [vA1, vB1]
  words := [['a', 'b', 'c'], ['x', 'y', 'z']]
  overlaps := fun u v =>
    if u = vA1 ∧ v = vB1 then some (1, 2)
    else if u = vB1 ∧ v = vA1 then some (2, 1)
    else none

/-- The domain store produced by the AC-3 stage of `solve P1`: slot B's
domain has been emptied. -/
def P1dom2 : Domains :=
  updateDom (enforce_node_consistency (initial_domains P1)) vB1 []

/-- Slot A of puzzle `P4`: across, length 2. -/
def vA4 : Slot := ⟨0, 0, Direction.across, 2⟩

/-- Slot B of puzzle `P4`: down, length 2. -/
def vB4 : Slot := ⟨0, 1, Direction.down, 2⟩

/-- Puzzle `P4`: two length-2 slots crossing at offset 1 of A and offset 0
of B. -/
def P4 : Puzzle where
  vars := [vA4, vB4]
  words := [['a', 'z'], ['b', 'a'], ['a', 'b'], ['a', 'c'], ['a', 'd']]
  overlaps := fun u v =>
    if u = vA4 ∧ v = vB4 then some (1, 0)
    else if u = vB4 ∧ v = vA4 then some (0, 1)
    else none

/-- A domain store for `P4`: A's candidates are {az, ba}, B's are
{ab, ac, ad}. -/
def P4dom : Domains :=
  fun v => if v = vA4 then [['a', 'z'], ['b', 'a']] else [['a', 'b'], ['a', 'c'], ['a', 'd']]

/-- Slot A of puzzle `P5`. -/
def vA5 : Slot := ⟨0, 0, Direction.across, 2⟩

/-- Slot B of puzzle `P5`. -/
def vB5 : Slot := ⟨2, 0, Direction.across, 2⟩

/-- Puzzle `P5`: two slots that do not cross — every crossing-map entry is
absent. -/
def P5 : Puzzle where
  vars := [vA5, vB5]
  words := [['a', 'b']]
  overlaps := fun _ _ => none

/-- A domain store for `P5`. -/
def P5dom : Domains := fun _ => [['a', 'b']]

/-- Slot A of puzzle `P6`: across, length 2. -/
def vA6 : Slot := ⟨0, 0, Direction.across, 2⟩

/-- Slot B of puzzle `P6`: down, length 2. -/
def vB6 : Slot := ⟨0, 1, Direction.down, 2⟩

/-- Puzzle `P6`: two length-2 slots crossing at offset 0 of A and offset 1
of B (so `revise(A, B)` hits the `if x_overlap:` truthiness bug), word list
{ab, cb, xa}. -/
def P6 : Puzzle where
  vars := [vA6, vB6]
  words := [['a', 'b'], ['c', 'b'], ['x', 'a']]
  overlaps := fun u v =>
    if u = vA6 ∧ v = vB6 then some (0, 1)
    else if u = vB6 ∧ v = vA6 then some (1, 0)
    else none

/-- The node-consistent domain store of `P6` (all words have length 2). -/
def P6dom : Domains := enforce_node_consistency (initial_domains P6)

/-- The domain store after `revise P6 P6dom vB6 vA6`: B's domain shrank to
{xa}, A's is untouched. -/
def P6dom2 : Domains := updateDom P6dom vB6 [['x', 'a']]

/-- The single slot of puzzle `Pcat`: across, length 3. -/
def vC : Slot := ⟨0, 0, Direction.across, 3⟩

/-- Puzzle `Pcat`: one length-3 slot, word list {cat, dog}; satisfiable. -/
def Pcat : Puzzle where
  vars := [vC]
  words := [['c', 'a', 't'], ['d', 'o', 'g']]
  overlaps := fun _ _ => none

/- ### Shared lemmas about `revise` -/

/-- A successful `revise p dom x y` changes no domain other than `x`'s. -/
theorem revise_frame {p : Puzzle} {dom : Domains} {x y z : Slot} {r : Bool} {dom2 : Domains}
    (h : revise p dom x y = some (r, dom2)) (hz : z ≠ x) : dom2 z = dom z := by
  unfold revise at h
  cases hov : p.overlaps x y with
  | none => rw [hov] at h; exact absurd h (by simp)
  | some pr =>
    obtain ⟨i, j⟩ := pr
    rw [hov] at h
    dsimp only at h
    split at h
    · rw [Option.some.injEq, Prod.mk.injEq] at h
      rw [← h.2]
    · rw [Option.some.injEq, Prod.mk.injEq] at h
      rw [← h.2]
      simp [updateDom, hz]

/- ### Shared lemmas about the embedded stable sort -/

/-- Inserting an element permutes to consing it. -/
theorem insertLe_perm {α : Type} (le : α → α → Bool) (x : α) (l : List α) :
    List.Perm (insertLe le x l) (x :: l) := by
  induction l with
  | nil => exact List.Perm.refl _
  | cons y ys ih =>
    unfold insertLe
    by_cases h : le y x = true
    · rw [if_pos h]
      exact (ih.cons y).trans (List.Perm.swap x y ys)
    · rw [if_neg h]

/-- The fold underlying `sortLe` permutes to appending. -/
theorem sortLe_go_perm {α : Type} (le : α → α → Bool) :
    ∀ (l acc : List α),
      List.Perm (l.foldl (fun acc x => insertLe le x acc) acc) (acc ++ l)
  | [], acc => by simp
  | x :: xs, acc => by
    simp only [List.foldl_cons]
    refine (sortLe_go_perm le xs (insertLe le x acc)).trans ?_
    refine (((insertLe_perm le x acc).append_right xs).trans ?_)
    simpa using List.perm_middle.symm

/-- The embedded sort permutes its input. -/
theorem sortLe_perm {α : Type} (le : α → α → Bool) (l : List α) :
    List.Perm (sortLe le l) l := by
  simpa [sortLe] using sortLe_go_perm le l []

/-- Inserting into a `le`-sorted list keeps it sorted, for a total and
transitive `le`. -/
theorem insertLe_pairwise {α : Type} {le : α → α → Bool}
    (htot : ∀ a b, le a b = true ∨ le b a = true)
    (htr : ∀ a b c, le a b = true → le b c = true → le a c = true)
    {x : α} {l : List α} (hl : List.Pairwise (fun a b => le a b = true) l) :
    List.Pairwise (fun a b => le a b = true) (insertLe le x l) := by
  induction l with
  | nil => simp [insertLe]
  | cons y ys ih =>
    rw [List.pairwise_cons] at hl
    obtain ⟨hy, hys⟩ := hl
    unfold insertLe
    by_cases h : le y x = true
    · rw [if_pos h]
      refine List.pairwise_cons.mpr ⟨?_, ih hys⟩
      intro b hb
      rcases List.mem_cons.mp ((insertLe_perm le x ys).mem_iff.mp hb) with rfl | hbys
      · exact h
      · exact hy b hbys
    · rw [if_neg h]
      have hxy : le x y = true := (htot x y).resolve_right h
      refine List.pairwise_cons.mpr ⟨?_, List.pairwise_cons.mpr ⟨hy, hys⟩⟩
      intro b hb
      rcases List.mem_cons.mp hb with rfl | hbys
      · exact hxy
      · exact htr x y b hxy (hy b hbys)

/-- The embedded sort produces a `le`-sorted list, for a total and
transitive `le`. -/
theorem sortLe_pairwise {α : Type} {le : α → α → Bool}
    (htot : ∀ a b, le a b = true ∨ le b a = true)
    (htr : ∀ a b c, le a b = true → le b c = true → le a c = true)
    (l : List α) :
    List.Pairwise (fun a b => le a b = true) (sortLe le l) := by
  suffices h : ∀ (l acc : List α), List.Pairwise (fun a b => le a b = true) acc →
      List.Pairwise (fun a b => le a b = true)
        (l.foldl (fun acc x => insertLe le x acc) acc) by
    exact h l [] (List.Pairwise.nil)
  intro l
  induction l with
  | nil => intro acc h; simpa using h
  | cons x xs ih =>
    intro acc h
    simp only [List.foldl_cons]
    exact ih _ (insertLe_pairwise htot htr h)

/-- The head of the embedded sort is `le`-minimal among the input. -/
theorem sortLe_head_min {α : Type} {le : α → α → Bool}
    (htot : ∀ a b, le a b = true ∨ le b a = true)
    (htr : ∀ a b c, le a b = true → le b c = true → le a c = true)
    {l : List α} {v : α} {t : List α} (h : sortLe le l = v :: t) :
    ∀ u ∈ l, le v u = true := by
  intro u hu
  have hmem : u ∈ v :: t := h ▸ (sortLe_perm le l).mem_iff.mpr hu
  rcases List.mem_cons.mp hmem with rfl | hut
  · rcases htot u u with h' | h' <;> exact h'
  · have hp := sortLe_pairwise htot htr l
    rw [h, List.pairwise_cons] at hp
    exact hp.1 u hut

/- ### Shared lemma about `select_unassigned_variable` -/

/-- When some slot is unassigned, `select_unassigned_variable` returns one
unassigned slot whose current domain size is minimal among the unassigned
slots. -/
theorem select_spec (p : Puzzle) (dom : Domains) (a : Assignment)
    (h : ∃ v, v ∈ p.vars ∧ hasKey a v = false) :
    ∃ v, select_unassigned_variable p dom a = some v
      ∧ v ∈ p.vars ∧ hasKey a v = false
      ∧ ∀ u ∈ p.vars, hasKey a u = false → (dom v).length ≤ (dom u).length := by
  obtain ⟨v0, hv0, hk0⟩ := h
  have htot : ∀ u v : Slot,
      decide ((dom u).length ≤ (dom v).length) = true
        ∨ decide ((dom v).length ≤ (dom u).length) = true := by
    intro u v
    rcases Nat.le_total (dom u).length (dom v).length with h' | h'
    · exact Or.inl (decide_eq_true h')
    · exact Or.inr (decide_eq_true h')
  have htr : ∀ u v w : Slot,
      decide ((dom u).length ≤ (dom v).length) = true →
      decide ((dom v).length ≤ (dom w).length) = true →
      decide ((dom u).length ≤ (dom w).length) = true := by
    intro u v w h1 h2
    exact decide_eq_true (Nat.le_trans (of_decide_eq_true h1) (of_decide_eq_true h2))
  have hv0l : v0 ∈ p.vars.filter (fun v => !(hasKey a v)) :=
    List.mem_filter.mpr ⟨hv0, by rw [hk0]; rfl⟩
  cases hs : sortLe (fun u v => decide ((dom u).length ≤ (dom v).length))
      (p.vars.filter (fun v => !(hasKey a v))) with
  | nil =>
    have : v0 ∈ ([] : List Slot) :=
      hs ▸ (sortLe_perm _ _).mem_iff.mpr hv0l
    exact absurd this (List.not_mem_nil v0)
  | cons v t =>
    have hvmem : v ∈ p.vars.filter (fun v => !(hasKey a v)) :=
      (sortLe_perm _ _).mem_iff.mp (hs ▸ List.mem_cons_self v t)
    have hvprops := List.mem_filter.mp hvmem
    refine ⟨v, ?_, hvprops.1, ?_, ?_⟩
    · unfold select_unassigned_variable
      rw [hs]
      rfl
    · have := hvprops.2
      simpa using this
    · intro u hu hku
      have hul : u ∈ p.vars.filter (fun v => !(hasKey a v)) :=
        List.mem_filter.mpr ⟨hu, by rw [hku]; rfl⟩
      exact of_decide_eq_true (sortLe_head_min htot htr hs u hul)

/- ### Claim C7 -/

/-- C7: after `enforce_node_consistency`, a word is in a slot's domain iff
it was there before and its length equals the slot's length — wrong-length
words are removed and no others. -/
theorem c7_node_consistency (dom : Domains) (v : Slot) (w : Word) :
    w ∈ enforce_node_consistency dom v ↔ w ∈ dom v ∧ w.length = v.length := by
  simp [enforce_node_consistency]

/- ### Claim C10 -/

/-- C10: a (non-crashing) run of `revise x y` mutates at most the domain of
`x` — every other slot's domain, including `y`'s, is unchanged. -/
theorem c10_revise_frame (p : Puzzle) (dom : Domains) (x y z : Slot) (r : Bool) (dom2 : Domains)
    (h : revise p dom x y = some (r, dom2)) (hz : z ≠ x) : dom2 z = dom z :=
  revise_frame h hz

/-- C10 witness: `revise P6 P6dom vB6 vA6` succeeds and leaves slot A's
domain unchanged. -/
theorem c10_witness :
    revise P6 P6dom vB6 vA6 = some (true, P6dom2)
      ∧ vA6 ≠ vB6
      ∧ P6dom2 vA6 = P6dom vA6 :=
  ⟨rfl, by decide, c10_revise_frame P6 P6dom vB6 vA6 vA6 true P6dom2 rfl (by decide)⟩

/- ### Claim C4 -/

/-- C4: `order_domain_values` does not sort ascending by elimination count —
on puzzle `P4` the word az (count 3) is returned before ba (count 0),
because line 270 sorts the dict's keys lexicographically and discards the
counts. -/
theorem c4_order_ignores_counts :
    order_domain_values P4 P4dom vA4 [] = [['a', 'z'], ['b', 'a']]
      ∧ ruled_out_count P4 P4dom [] vA4 ['a', 'z'] = 3
      ∧ ruled_out_count P4 P4dom [] vA4 ['b', 'a'] = 0 := by
  decide

/- ### Claim C5 -/

/-- C5: on a slot pair whose crossing-map entry is absent, `revise` does not
return the no-revision result `False`: line 134 unpacks the `None` entry and
raises `TypeError`, modelled as the crash result `none`. -/
theorem c5_revise_crashes_on_none_overlap :
    P5.overlaps vA5 vB5 = none ∧ revise P5 P5dom vA5 vB5 = none :=
  ⟨rfl, rfl⟩

/- ### Claim C6 -/

/-- C6: an `ac3` run on puzzle `P6` returns success, yet the word cb remains
in slot A's domain although no word of slot B's domain agrees with it at the
crossing offsets (0, 1) — the `if x_overlap:` truthiness bug of line 137
skips every revision whose x-side offset is 0. -/
theorem c6_ac3_leaves_unsupported_word :
    (ac3 P6 (ac3_fuel P6 P6dom) P6dom).map (fun r => (r.1, r.2 vA6, r.2 vB6))
        = some (true, [['a', 'b'], ['c', 'b'], ['x', 'a']], [['x', 'a']])
      ∧ P6.overlaps vA6 vB6 = some (0, 1)
      ∧ ['c', 'b'] ∈ [['a', 'b'], ['c', 'b'], ['x', 'a']]
      ∧ [['x', 'a']].all (fun wy => !(charAt ['c', 'b'] 0 == charAt wy 1)) = true := by
  decide

/- ### Claim C1 -/

/-- C1 counterexample: on puzzle `P1` the AC-3 stage of `solve` empties slot
B's domain (and returns `False`), yet `backtrack` is still invoked — the
claim that `Solve` returns without attempting a backtracking search is
false. -/
theorem c1_counterexample_backtrack_still_invoked :
    (ac3 P1 (ac3_fuel P1 (enforce_node_consistency (initial_domains P1)))
          (enforce_node_consistency (initial_domains P1))).map (fun r => (r.1, r.2 vB1))
        = some (false, [])
      ∧ vB1 ∈ P1.vars
      ∧ (solveTrace P1).2 = true := by
  decide

/-- C1 amended: when the AC-3 stage of `solve` leaves some slot's domain
empty, `solve` does return the no-solution result — but `backtrack` is
invoked (line 94 ignores the AC-3 Boolean); the failure arises because
backtracking immediately selects the empty-domain slot and has no candidate
values. -/
theorem c1_amended_no_solution_via_backtrack (p : Puzzle) (b : Bool) (dom2 : Domains) (v : Slot)
    (hac : ac3 p (ac3_fuel p (enforce_node_consistency (initial_domains p)))
        (enforce_node_consistency (initial_domains p)) = some (b, dom2))
    (hv : v ∈ p.vars) (hempty : dom2 v = []) :
    solve p = some none ∧ (solveTrace p).2 = true := by
  have htrace : solveTrace p = (backtrack p dom2 (p.vars.length + 1) [], true) := by
    unfold solveTrace
    rw [hac]
  have hlen : ¬ ((0 : Nat) = p.vars.length) := by
    intro h0
    have : p.vars = [] := List.length_eq_zero.mp h0.symm
    rw [this] at hv
    exact absurd hv (List.not_mem_nil v)
  obtain ⟨v1, hs1, hv1, -, hmin⟩ :=
    select_spec p dom2 [] ⟨v, hv, rfl⟩
  have hv1e : dom2 v1 = [] := by
    have hle := hmin v hv rfl
    rw [hempty] at hle
    exact List.length_eq_zero.mp (Nat.le_zero.mp hle)
  have hodv : order_domain_values p dom2 v1 [] = [] := by
    unfold order_domain_values
    rw [hv1e]
    rfl
  have hbt : backtrack p dom2 (p.vars.length + 1) [] = some none := by
    simp only [backtrack, List.length_nil]
    rw [if_neg hlen]
    simp only [hs1, hodv, try_values]
  constructor
  · unfold solve
    rw [htrace, hbt]
  · rw [htrace]

/-- C1 amended witness: instantiated on puzzle `P1`, where the AC-3 stage
empties slot B's domain. -/
theorem c1_amended_witness :
    (ac3 P1 (ac3_fuel P1 (enforce_node_consistency (initial_domains P1)))
          (enforce_node_consistency (initial_domains P1)) = some (false, P1dom2))
      ∧ vB1 ∈ P1.vars ∧ P1dom2 vB1 = []
      ∧ (solve P1 = some none ∧ (solveTrace P1).2 = true) :=
  ⟨rfl, by decide, rfl,
    c1_amended_no_solution_via_backtrack P1 false P1dom2 vB1 rfl (by decide) rfl⟩

/- ### Claim C9 -/

/-- C9: for every assignment that leaves some slot uncovered,
`select_unassigned_variable` returns exactly one slot, unassigned and of
minimal current domain size among the unassigned slots. -/
theorem c9_select_unassigned_mrv (p : Puzzle) (dom : Domains) (a : Assignment)
    (h : ∃ v, v ∈ p.vars ∧ hasKey a v = false) :
    ∃ v, select_unassigned_variable p dom a = some v
      ∧ v ∈ p.vars ∧ hasKey a v = false
      ∧ ∀ u ∈ p.vars, hasKey a u = false → (dom v).length ≤ (dom u).length :=
  select_spec p dom a h

/-- C9 witness: instantiated on puzzle `P6` with the empty assignment. -/
theorem c9_witness :
    ∃ v, select_unassigned_variable P6 P6dom [] = some v
      ∧ v ∈ P6.vars ∧ hasKey [] v = false
      ∧ ∀ u ∈ P6.vars, hasKey [] u = false → (P6dom v).length ≤ (P6dom u).length :=
  c9_select_unassigned_mrv P6 P6dom [] ⟨vA6, by decide, rfl⟩

/- ### Shared lemmas about assignments as association lists -/

/-- With duplicate-free keys, membership of a pair determines the lookup. -/
theorem keys_nodup_lookup {a : Assignment} (hnd : (keys a).Nodup) {v : Slot} {w : Word}
    (hmem : (v, w) ∈ a) : lookupWord a v = some w := by
  induction a with
  | nil => exact absurd hmem (List.not_mem_nil _)
  | cons pr rest ih =>
    have hnd' : (keys rest).Nodup := (List.pairwise_cons.mp hnd).2
    have hhead : ∀ u ∈ keys rest, pr.1 ≠ u := (List.pairwise_cons.mp hnd).1
    by_cases hv : pr.1 = v
    · have hfind : ((pr :: rest).find? (fun q => q.1 == v)) = some pr :=
        List.find?_cons_of_pos _ (by simp [hv])
      rcases List.mem_cons.mp hmem with heq | htail
      · unfold lookupWord
        rw [hfind, ← heq]
        rfl
      · exact absurd (hhead v (List.mem_map.mpr ⟨(v, w), htail, rfl⟩)) (by simp [hv])
    · have hfind : ((pr :: rest).find? (fun q => q.1 == v)) = rest.find? (fun q => q.1 == v) :=
        List.find?_cons_of_neg _ (by simp [hv])
      rcases List.mem_cons.mp hmem with heq | htail
      · exact absurd (congrArg Prod.fst heq.symm) hv
      · unfold lookupWord at ih ⊢
        rw [hfind]
        exact ih hnd' htail

/-- A successful lookup comes from a pair of the assignment. -/
theorem lookup_mem {a : Assignment} {v : Slot} {w : Word}
    (h : lookupWord a v = some w) : (v, w) ∈ a := by
  unfold lookupWord at h
  obtain ⟨⟨q1, q2⟩, hfind, hsnd⟩ := Option.map_eq_some'.mp h
  have hmemq := List.mem_of_find?_eq_some hfind
  have hkey : q1 = v := by simpa using List.find?_some hfind
  have hsnd' : q2 = w := hsnd
  rw [← hkey, ← hsnd']
  exact hmemq

/-- A slot is a key iff some pair binds it. -/
theorem mem_keys_iff {a : Assignment} {v : Slot} : v ∈ keys a ↔ ∃ w, (v, w) ∈ a := by
  unfold keys
  rw [List.mem_map]
  constructor
  · rintro ⟨⟨v', w⟩, hmem, rfl⟩
    exact ⟨w, hmem⟩
  · rintro ⟨w, hmem⟩
    exact ⟨(v, w), hmem, rfl⟩

/-- The Python `var in assignment` test, related to key membership. -/
theorem hasKey_eq_false_iff {a : Assignment} {v : Slot} :
    hasKey a v = false ↔ v ∉ keys a := by
  constructor
  · intro h hv
    obtain ⟨w, hmem⟩ := mem_keys_iff.mp hv
    have htrue : hasKey a v = true := by
      unfold hasKey
      rw [List.any_eq_true]
      exact ⟨(v, w), hmem, by simp⟩
    rw [h] at htrue
    exact Bool.false_ne_true htrue
  · intro h
    rcases Bool.eq_false_or_eq_true (hasKey a v) with hck | hck
    · obtain ⟨pr, hpr, heq⟩ := List.any_eq_true.mp hck
      exact absurd (List.mem_map.mpr ⟨pr, hpr, by simpa using heq⟩) h
    · exact hck

/- ### Characterization of `consistent` -/

/-- A list is duplicate-free iff every member occurs at most once (stated
for the `BEq` instance used by the embedded `count`). -/
theorem count_le_one_iff_nodup {α : Type} [BEq α] [LawfulBEq α] (l : List α) :
    (∀ w ∈ l, l.count w ≤ 1) ↔ l.Nodup := by
  induction l with
  | nil => simp
  | cons x xs ih =>
    rw [List.nodup_cons]
    constructor
    · intro h
      refine ⟨?_, ih.mp ?_⟩
      · intro hx
        have h1 := h x (List.mem_cons_self x xs)
        rw [List.count_cons, if_pos (show (x == x) = true by simp)] at h1
        have h2 : 0 < xs.count x := List.count_pos_iff.mpr hx
        omega
      · intro w hw
        have h2 := h w (List.mem_cons_of_mem x hw)
        rw [List.count_cons] at h2
        by_cases hxw : (x == w) = true
        · rw [if_pos hxw] at h2
          omega
        · rw [if_neg hxw] at h2
          omega
    · rintro ⟨hx, hnd⟩ w hw
      rw [List.count_cons]
      by_cases hxw : (x == w) = true
      · have hxe : x = w := eq_of_beq hxw
        have hz : xs.count w = 0 := List.count_eq_zero.mpr (hxe ▸ hx)
        rw [if_pos hxw, hz]
      · rw [if_neg hxw]
        rcases List.mem_cons.mp hw with rfl | hwxs
        · simp at hxw
        · have := ih.mpr hnd w hwxs
          omega

/-- The distinct-values loop passes iff the bound words are duplicate-free. -/
theorem distinct_values_iff_nodup (a : Assignment) :
    distinct_values a = true ↔ (a.map Prod.snd).Nodup := by
  unfold distinct_values
  rw [List.all_eq_true, ← count_le_one_iff_nodup]
  constructor
  · intro h w hw
    exact of_decide_eq_true (h w hw)
  · intro h w hw
    exact decide_eq_true (h w hw)

/-- With duplicate-free keys, the bound words are duplicate-free iff no two
distinct slots are bound to the same word. -/
theorem values_nodup_iff {a : Assignment} (hnd : (keys a).Nodup) :
    (a.map Prod.snd).Nodup ↔
      ∀ pr1 ∈ a, ∀ pr2 ∈ a, pr1.1 ≠ pr2.1 → pr1.2 ≠ pr2.2 := by
  have hnda : a.Nodup := List.Nodup.of_map Prod.fst hnd
  rw [List.nodup_map_iff_inj_on hnda]
  constructor
  · intro h pr1 h1 pr2 h2 hne heq
    exact hne (congrArg Prod.fst (h pr1 h1 pr2 h2 heq))
  · intro h x hx y hy hxy
    by_cases hk : x.1 = y.1
    · exact List.inj_on_of_nodup_map hnd hx hy hk
    · exact absurd hxy (h x hx y hy hk)

/-- The length loop passes iff every bound word has its slot's length. -/
theorem correct_lengths_iff (a : Assignment) :
    correct_lengths a = true ↔ ∀ pr ∈ a, pr.1.length = pr.2.length := by
  unfold correct_lengths
  simp [List.all_eq_true]

/-- The crossing loop passes iff every two bound crossing slots agree at the
crossing offsets (for assignments over the puzzle's slots, with
duplicate-free keys). -/
theorem no_conflicts_iff {p : Puzzle} {a : Assignment} (hnd : (keys a).Nodup)
    (hsub : ∀ pr ∈ a, pr.1 ∈ p.vars) :
    no_conflicts p a = true ↔
      ∀ pr1 ∈ a, ∀ pr2 ∈ a, ∀ i j, pr1.1 ≠ pr2.1 →
        p.overlaps pr1.1 pr2.1 = some (i, j) → charAt pr1.2 i = charAt pr2.2 j := by
  unfold no_conflicts
  rw [List.all_eq_true]
  constructor
  · intro h pr1 h1 pr2 h2 i j hne hov
    have hnbr : pr2.1 ∈ neighbors p pr1.1 := by
      refine List.mem_filter.mpr ⟨hsub pr2 h2, ?_⟩
      simp [Ne.symm hne, hov]
    have h1' := List.all_eq_true.mp (h pr1 h1) pr2.1 hnbr
    rw [keys_nodup_lookup hnd h2] at h1'
    simp only [hov] at h1'
    exact beq_iff_eq.mp h1'
  · intro h pr hpr
    rw [List.all_eq_true]
    intro n hn
    obtain ⟨hnvars, hflt⟩ := List.mem_filter.mp hn
    have hne : pr.1 ≠ n := by
      intro heq
      simp [heq] at hflt
    cases hlw : lookupWord a n with
    | none => simp only [hlw]
    | some w2 =>
      have hmem2 : (n, w2) ∈ a := lookup_mem hlw
      cases hov : p.overlaps pr.1 n with
      | none => simp only [hlw, hov]
      | some ij =>
        obtain ⟨i, j⟩ := ij
        simp only [hlw, hov]
        exact beq_iff_eq.mpr (h pr hpr (n, w2) hmem2 i j hne hov)

/-- The full characterization of `consistent`. -/
theorem consistent_iff {p : Puzzle} {a : Assignment} (hnd : (keys a).Nodup)
    (hsub : ∀ pr ∈ a, pr.1 ∈ p.vars) :
    consistent p a = true ↔
      ((∀ pr1 ∈ a, ∀ pr2 ∈ a, pr1.1 ≠ pr2.1 → pr1.2 ≠ pr2.2)
        ∧ (∀ pr ∈ a, pr.1.length = pr.2.length)
        ∧ (∀ pr1 ∈ a, ∀ pr2 ∈ a, ∀ i j, pr1.1 ≠ pr2.1 →
            p.overlaps pr1.1 pr2.1 = some (i, j) → charAt pr1.2 i = charAt pr2.2 j)) := by
  unfold consistent
  rw [Bool.and_eq_true, Bool.and_eq_true]
  rw [distinct_values_iff_nodup, values_nodup_iff hnd, correct_lengths_iff,
    no_conflicts_iff hnd hsub]
  tauto

/- ### Claim C8 -/

/-- C8: `consistent(assignment)` returns True iff all three hold — no two
distinct slots bound to the same word, every bound word of its slot's
length, and agreement at the crossing offsets for every bound crossing
pair (for dict-like assignments over the puzzle's slots). -/
theorem c8_consistent_characterization (p : Puzzle) (a : Assignment)
    (hnd : (keys a).Nodup) (hsub : ∀ pr ∈ a, pr.1 ∈ p.vars) :
    consistent p a = true ↔
      ((∀ pr1 ∈ a, ∀ pr2 ∈ a, pr1.1 ≠ pr2.1 → pr1.2 ≠ pr2.2)
        ∧ (∀ pr ∈ a, pr.1.length = pr.2.length)
        ∧ (∀ pr1 ∈ a, ∀ pr2 ∈ a, ∀ i j, pr1.1 ≠ pr2.1 →
            p.overlaps pr1.1 pr2.1 = some (i, j) → charAt pr1.2 i = charAt pr2.2 j)) :=
  consistent_iff hnd hsub

/-- C8 witness: instantiated on puzzle `P6` with the two-slot assignment
{A ↦ xa, B ↦ ab}. -/
theorem c8_witness :
    (keys [(vA6, ['x', 'a']), (vB6, ['a', 'b'])]).Nodup
      ∧ (∀ pr ∈ [(vA6, ['x', 'a']), (vB6, ['a', 'b'])], pr.1 ∈ P6.vars)
      ∧ (consistent P6 [(vA6, ['x', 'a']), (vB6, ['a', 'b'])] = true ↔
          ((∀ pr1 ∈ [(vA6, ['x', 'a']), (vB6, ['a', 'b'])],
              ∀ pr2 ∈ [(vA6, ['x', 'a']), (vB6, ['a', 'b'])], pr1.1 ≠ pr2.1 → pr1.2 ≠ pr2.2)
            ∧ (∀ pr ∈ [(vA6, ['x', 'a']), (vB6, ['a', 'b'])], pr.1.length = pr.2.length)
            ∧ (∀ pr1 ∈ [(vA6, ['x', 'a']), (vB6, ['a', 'b'])],
                ∀ pr2 ∈ [(vA6, ['x', 'a']), (vB6, ['a', 'b'])], ∀ i j, pr1.1 ≠ pr2.1 →
                P6.overlaps pr1.1 pr2.1 = some (i, j) →
                  charAt pr1.2 i = charAt pr2.2 j))) :=
  ⟨by decide, by decide,
    c8_consistent_characterization P6 [(vA6, ['x', 'a']), (vB6, ['a', 'b'])]
      (by decide) (by decide)⟩

/- ### Shared lemmas about the backtracking search -/

/-- The empty assignment is consistent. -/
theorem consistent_nil (p : Puzzle) : consistent p [] = true := rfl

/-- The Python `var in assignment` test, positive form. -/
theorem hasKey_eq_true_iff {a : Assignment} {v : Slot} :
    hasKey a v = true ↔ v ∈ keys a := by
  unfold hasKey keys
  rw [List.any_eq_true, List.mem_map]
  constructor
  · rintro ⟨pr, hpr, heq⟩
    exact ⟨pr, hpr, by simpa using heq⟩
  · rintro ⟨pr, hpr, heq⟩
    exact ⟨pr, hpr, by simp [heq]⟩

/-- Keys of an assignment extended by one new binding. -/
theorem keys_append_single (a : Assignment) (var : Slot) (w : Word) :
    keys (a ++ [(var, w)]) = keys a ++ [var] := by
  simp [keys]

/-- Extending by an unbound slot keeps the keys duplicate-free. -/
theorem keys_ext_nodup {a : Assignment} {var : Slot} {w : Word}
    (hnd : (keys a).Nodup) (hnew : var ∉ keys a) :
    (keys (a ++ [(var, w)])).Nodup := by
  rw [keys_append_single]
  rw [List.nodup_append]
  exact ⟨hnd, List.nodup_singleton var, by simpa [List.disjoint_singleton] using hnew⟩

/-- Extending by a slot of the puzzle keeps the keys inside the puzzle. -/
theorem keys_ext_sub {p : Puzzle} {a : Assignment} {var : Slot} {w : Word}
    (hsub : ∀ pr ∈ a, pr.1 ∈ p.vars) (hvar : var ∈ p.vars) :
    ∀ pr ∈ a ++ [(var, w)], pr.1 ∈ p.vars := by
  intro pr hpr
  rcases List.mem_append.mp hpr with hmem | hmem
  · exact hsub pr hmem
  · rw [List.mem_singleton.mp hmem]
    exact hvar

/-- When the assignment's size differs from the slot count, some slot of
the puzzle is unassigned (for dict-like assignments over the puzzle's
slots and a duplicate-free slot list). -/
theorem exists_unassigned {p : Puzzle} {a : Assignment} (hndv : p.vars.Nodup)
    (hnd : (keys a).Nodup) (hsub : ∀ pr ∈ a, pr.1 ∈ p.vars)
    (hlen : a.length ≠ p.vars.length) :
    ∃ v, v ∈ p.vars ∧ hasKey a v = false := by
  by_contra hcon
  push_neg at hcon
  have hvk : p.vars ⊆ keys a := by
    intro v hv
    have hne := hcon v hv
    have : hasKey a v = true := by
      rcases Bool.eq_false_or_eq_true (hasKey a v) with hck | hck
      · exact hck
      · exact absurd hck hne
    exact hasKey_eq_true_iff.mp this
  have hkv : keys a ⊆ p.vars := by
    intro v hv
    obtain ⟨w, hw⟩ := mem_keys_iff.mp hv
    exact hsub (v, w) hw
  have h1 : (keys a).length ≤ p.vars.length := (List.subperm_of_subset hnd hkv).length_le
  have h2 : p.vars.length ≤ (keys a).length := (List.subperm_of_subset hndv hvk).length_le
  have h3 : (keys a).length = a.length := List.length_map a Prod.fst
  omega

/-- The candidate loop of `backtrack` only returns results that its
recursive call (assumed sound on every consistent extension) vouches for. -/
theorem try_values_sound {p : Puzzle} {bt : Assignment → Option (Option Assignment)}
    {a : Assignment} {var : Slot}
    (hbt : ∀ w r, consistent p (a ++ [(var, w)]) = true →
        bt (a ++ [(var, w)]) = some (some r) → SoundResult p r) :
    ∀ (ws : List Word) (r : Assignment),
      try_values p bt a var ws = some (some r) → SoundResult p r := by
  intro ws
  induction ws with
  | nil =>
    intro r h
    exact absurd h (by simp [try_values])
  | cons w ws ihw =>
    intro r h
    rw [try_values] at h
    by_cases hc : consistent p (a ++ [(var, w)]) = true
    · rw [if_pos hc] at h
      cases hbtres : bt (a ++ [(var, w)]) with
      | none =>
        rw [hbtres] at h
        exact absurd h (by simp)
      | some o =>
        cases o with
        | none =>
          rw [hbtres] at h
          dsimp only at h
          exact ihw r h
        | some r' =>
          rw [hbtres] at h
          dsimp only at h
          have heq : r' = r := by simpa using h
          subst heq
          exact hbt w r' hc hbtres
    · rw [if_neg hc] at h
      exact ihw r h

/-- Soundness of `backtrack`: starting from a consistent dict-like
assignment over the puzzle's slots, any returned assignment is consistent,
dict-like, and of full size. -/
theorem backtrack_sound {p : Puzzle} {dom : Domains} (hndv : p.vars.Nodup) :
    ∀ (n : Nat) (a r : Assignment),
      (keys a).Nodup → (∀ pr ∈ a, pr.1 ∈ p.vars) → consistent p a = true →
      backtrack p dom n a = some (some r) → SoundResult p r := by
  intro n
  induction n with
  | zero =>
    intro a r _ _ _ h
    exact absurd h (by simp [backtrack])
  | succ n ih =>
    intro a r hnd hsub hcon h
    rw [backtrack] at h
    by_cases hlen : a.length = p.vars.length
    · rw [if_pos hlen] at h
      obtain rfl : a = r := by simpa using h
      exact ⟨hcon, hnd, hsub, hlen⟩
    · rw [if_neg hlen] at h
      obtain ⟨var, hsel, hvvars, hvkey, -⟩ :=
        select_spec p dom a (exists_unassigned hndv hnd hsub hlen)
      rw [hsel] at h
      dsimp only at h
      refine try_values_sound ?_ (order_domain_values p dom var a) r h
      intro w r' hc hres
      exact ih (a ++ [(var, w)]) r'
        (keys_ext_nodup hnd (hasKey_eq_false_iff.mp hvkey))
        (keys_ext_sub hsub hvvars) hc hres

/- ### Claim C3 -/

/-- C3: whenever `solve` returns an assignment rather than the no-solution
sentinel, that assignment is accepted by `consistent` and binds every slot
of the puzzle. -/
theorem c3_solve_sound (p : Puzzle) (a : Assignment) (hndv : p.vars.Nodup)
    (h : solve p = some (some a)) :
    consistent p a = true ∧ ∀ v ∈ p.vars, ∃ w, (v, w) ∈ a := by
  unfold solve solveTrace at h
  cases hac : ac3 p (ac3_fuel p (enforce_node_consistency (initial_domains p)))
      (enforce_node_consistency (initial_domains p)) with
  | none =>
    rw [hac] at h
    exact absurd h (by simp)
  | some pr =>
    obtain ⟨b, dom2⟩ := pr
    rw [hac] at h
    dsimp only at h
    obtain ⟨hcon, hndk, hsubk, hlen⟩ :=
      backtrack_sound hndv (p.vars.length + 1) [] a
        (by simp [keys]) (by simp) (consistent_nil p) h
    refine ⟨hcon, ?_⟩
    have hkeysub : keys a ⊆ p.vars := by
      intro v hv
      obtain ⟨w, hw⟩ := mem_keys_iff.mp hv
      exact hsubk (v, w) hw
    have hperm : List.Perm (keys a) p.vars :=
      (List.subperm_of_subset hndk hkeysub).perm_of_length_le
        (by
          have h3 : (keys a).length = a.length := List.length_map a Prod.fst
          omega)
    intro v hv
    exact mem_keys_iff.mp (hperm.mem_iff.mpr hv)

/-- C3 witness: instantiated on the satisfiable one-slot puzzle `Pcat`,
where `solve` returns the assignment {slot ↦ cat}. -/
theorem c3_witness :
    Pcat.vars.Nodup
      ∧ solve Pcat = some (some [(vC, ['c', 'a', 't'])])
      ∧ (consistent Pcat [(vC, ['c', 'a', 't'])] = true
          ∧ ∀ v ∈ Pcat.vars, ∃ w, (v, w) ∈ [(vC, ['c', 'a', 't'])]) :=
  ⟨by decide, by decide,
    c3_solve_sound Pcat [(vC, ['c', 'a', 't'])] (by decide) (by decide)⟩

/- ### Pruning behavior of `revise` and the `ac3` worklist -/

/-- Membership in the modelled `neighbors`. -/
theorem mem_neighbors {p : Puzzle} {v u : Slot} :
    u ∈ neighbors p v ↔ u ∈ p.vars ∧ u ≠ v ∧ (p.overlaps v u).isSome = true := by
  unfold neighbors
  rw [List.mem_filter, Bool.and_eq_true, Bool.not_eq_true', beq_eq_false_iff_ne]

/-- A `revise` run that reports no revision leaves the domain store
unchanged. -/
theorem revise_false_eq {p : Puzzle} {dom : Domains} {x y : Slot} {dom2 : Domains}
    (h : revise p dom x y = some (false, dom2)) : dom2 = dom := by
  unfold revise at h
  cases hov : p.overlaps x y with
  | none => rw [hov] at h; exact absurd h (by simp)
  | some pr =>
    obtain ⟨i, j⟩ := pr
    rw [hov] at h
    dsimp only at h
    split at h
    · rw [Option.some.injEq, Prod.mk.injEq] at h
      exact h.2.symm
    · rw [Option.some.injEq, Prod.mk.injEq] at h
      have hall : ∀ wx ∈ dom x,
          ((dom y).any fun wy => charAt wx i == charAt wy j) = true := by
        intro wx hwx
        have h1 := h.1
        rw [List.any_eq_false] at h1
        have h2 := h1 wx hwx
        rw [Bool.not_eq_true', Bool.not_eq_false] at h2
        exact h2
      have hfe : ((dom x).filter fun wx =>
          (dom y).any fun wy => charAt wx i == charAt wy j) = dom x :=
        List.filter_eq_self.mpr hall
      rw [← h.2]
      funext v
      unfold updateDom
      by_cases hv : v = x
      · rw [if_pos hv, hv, hfe]
      · rw [if_neg hv]

/-- A `revise` run that reports a revision strictly shrank `x`'s domain. -/
theorem revise_true_shrink {p : Puzzle} {dom : Domains} {x y : Slot} {dom2 : Domains}
    (h : revise p dom x y = some (true, dom2)) :
    (dom2 x).length < (dom x).length := by
  unfold revise at h
  cases hov : p.overlaps x y with
  | none => rw [hov] at h; exact absurd h (by simp)
  | some pr =>
    obtain ⟨i, j⟩ := pr
    rw [hov] at h
    dsimp only at h
    split at h
    · rw [Option.some.injEq, Prod.mk.injEq] at h
      exact absurd h.1 (by simp)
    · rw [Option.some.injEq, Prod.mk.injEq] at h
      obtain ⟨wx, hwx, hnk⟩ := List.any_eq_true.mp h.1
      rw [Bool.not_eq_true'] at hnk
      have hlt : (((dom x).filter fun wx =>
          (dom y).any fun wy => charAt wx i == charAt wy j)).length < (dom x).length :=
        List.length_filter_lt_length_iff_exists.mpr ⟨wx, hwx, by simp [hnk]⟩
      rw [← h.2]
      unfold updateDom
      rw [if_pos rfl]
      exact hlt

/-- A word of `x`'s domain with a supporting word in `y`'s domain survives
`revise x y`. -/
theorem revise_mem_preserved {p : Puzzle} {dom : Domains} {x y : Slot} {r : Bool}
    {dom2 : Domains} (h : revise p dom x y = some (r, dom2)) {wx : Word}
    (hwx : wx ∈ dom x)
    (hsup : ∀ i j, p.overlaps x y = some (i, j) →
      ∃ wy ∈ dom y, charAt wx i = charAt wy j) :
    wx ∈ dom2 x := by
  unfold revise at h
  cases hov : p.overlaps x y with
  | none => rw [hov] at h; exact absurd h (by simp)
  | some pr =>
    obtain ⟨i, j⟩ := pr
    rw [hov] at h
    dsimp only at h
    split at h
    · rw [Option.some.injEq, Prod.mk.injEq] at h
      rw [← h.2]
      exact hwx
    · rw [Option.some.injEq, Prod.mk.injEq] at h
      rw [← h.2]
      unfold updateDom
      rw [if_pos rfl]
      refine List.mem_filter.mpr ⟨hwx, ?_⟩
      obtain ⟨wy, hwy, hagr⟩ := hsup i j hov
      exact List.any_eq_true.mpr ⟨wy, hwy, beq_iff_eq.mpr hagr⟩

/-- A solution function surviving in the domain store survives any single
`revise` step on an arc of distinct puzzle slots. -/
theorem revise_sol_preserved {p : Puzzle} {dom : Domains} {x y : Slot} {r : Bool}
    {dom2 : Domains} {f : Slot → Word} (h : revise p dom x y = some (r, dom2))
    (hmem : ∀ v ∈ p.vars, f v ∈ dom v) (hy : y ∈ p.vars)
    (hsup : ∀ i j, p.overlaps x y = some (i, j) → charAt (f x) i = charAt (f y) j) :
    ∀ v ∈ p.vars, f v ∈ dom2 v := by
  intro v hv
  by_cases hvx : v = x
  · subst hvx
    exact revise_mem_preserved h (hmem v hv)
      (fun i j hov => ⟨f y, hmem y hy, hsup i j hov⟩)
  · rw [revise_frame h hvx]
    exact hmem v hv

/-- The initial worklist of `ac3` satisfies the arc invariant. -/
theorem initial_arcs_good (p : Puzzle) : goodArcs p (initial_arcs p).reverse := by
  intro ar har
  rw [List.mem_reverse] at har
  unfold initial_arcs at har
  obtain ⟨v1, hv1, hmem⟩ := List.mem_flatMap.mp har
  obtain ⟨v2, hv2, heq⟩ := List.mem_map.mp hmem
  obtain ⟨hnb, -⟩ := List.mem_filter.mp hv2
  obtain ⟨hv2vars, hne, hisSome⟩ := mem_neighbors.mp hnb
  rw [← heq]
  exact ⟨hv1, hv2vars, Ne.symm hne, hisSome⟩

/-- The arcs re-enqueued after a revision of `x` satisfy the arc invariant
(using symmetry of the crossing map). -/
theorem enqueued_arcs_good {p : Puzzle} (hsym : overlapsSymm p) {x y : Slot}
    (hx : x ∈ p.vars) :
    goodArcs p ((((neighbors p x).filter (fun z => !(z == y))).map
      (fun z => (z, x))).reverse) := by
  intro ar har
  rw [List.mem_reverse] at har
  obtain ⟨z, hz, heq⟩ := List.mem_map.mp har
  obtain ⟨hznb, -⟩ := List.mem_filter.mp hz
  obtain ⟨hzvars, hzne, hzsome⟩ := mem_neighbors.mp hznb
  rw [← heq]
  refine ⟨hzvars, hx, hzne, ?_⟩
  obtain ⟨⟨i, j⟩, hij⟩ := Option.isSome_iff_exists.mp hzsome
  rw [hsym x z i j hij]
  rfl

/-- The arc invariant distributes over append. -/
theorem goodArcs_append {p : Puzzle} {q1 q2 : List (Slot × Slot)}
    (h1 : goodArcs p q1) (h2 : goodArcs p q2) : goodArcs p (q1 ++ q2) := by
  intro ar har
  rcases List.mem_append.mp har with h | h
  · exact h1 ar h
  · exact h2 ar h

/-- The arc invariant restricts to the tail. -/
theorem goodArcs_tail {p : Puzzle} {ar : Slot × Slot} {q : List (Slot × Slot)}
    (h : goodArcs p (ar :: q)) : goodArcs p q :=
  fun a ha => h a (List.mem_cons_of_mem ar ha)

/-- Shrinking the domain of one listed slot strictly shrinks the total
domain size over a duplicate-free slot list. -/
theorem sum_update_lt {dom dom2 : Domains} {x : Slot}
    (hlt : (dom2 x).length < (dom x).length)
    (hframe : ∀ z, z ≠ x → dom2 z = dom z) :
    ∀ (l : List Slot), l.Nodup → x ∈ l →
      (l.map fun v => (dom2 v).length).sum < (l.map fun v => (dom v).length).sum := by
  intro l
  induction l with
  | nil =>
    intro _ hx
    exact absurd hx (List.not_mem_nil x)
  | cons a as ih =>
    intro hnd hx
    obtain ⟨hhead, htail⟩ := List.nodup_cons.mp hnd
    rw [List.map_cons, List.map_cons, List.sum_cons, List.sum_cons]
    rcases List.mem_cons.mp hx with heq | hxas
    · have htails : (as.map fun v => (dom2 v).length) = as.map fun v => (dom v).length := by
        refine List.map_congr_left ?_
        intro v hv
        have hvne : v ≠ x := by
          intro hvx
          rw [heq] at hvx
          exact hhead (hvx ▸ hv)
        rw [hframe v hvne]
      have hha : (dom2 a).length < (dom a).length := by
        rw [← heq]
        exact hlt
      rw [htails]
      omega
    · have hane : a ≠ x := by
        intro heq
        exact hhead (heq ▸ hxas)
      rw [hframe a hane]
      have := ih htail hxas
      omega

/-- A popped arc with a present crossing-map entry cannot crash `revise`. -/
theorem revise_isSome {p : Puzzle} (dom : Domains) {x y : Slot}
    (hsome : (p.overlaps x y).isSome = true) :
    ∃ r dom2, revise p dom x y = some (r, dom2) := by
  obtain ⟨⟨i, j⟩, hov⟩ := Option.isSome_iff_exists.mp hsome
  unfold revise
  rw [hov]
  dsimp only
  by_cases hi : i = 0
  · rw [if_pos hi]
    exact ⟨false, dom, rfl⟩
  · rw [if_neg hi]
    exact ⟨_, _, rfl⟩

/-- With the arc invariant and enough fuel, the `ac3` worklist loop reaches
its exit (no fuel exhaustion and no crash). -/
theorem ac3go_complete {p : Puzzle} (hndv : p.vars.Nodup) (hsym : overlapsSymm p) :
    ∀ (fuel : Nat) (dom : Domains) (q : List (Slot × Slot)), goodArcs p q →
      q.length + (p.vars.length + 1) * total_size p dom ≤ fuel →
      (ac3go p fuel dom q).isSome = true := by
  intro fuel
  induction fuel with
  | zero =>
    intro dom q _ hb
    have hq : q.length = 0 := by omega
    rw [List.length_eq_zero.mp hq]
    rfl
  | succ fuel ih =>
    intro dom q hg hb
    cases q with
    | nil => rfl
    | cons ar rest =>
      obtain ⟨x, y⟩ := ar
      obtain ⟨hx, hy, hne, hsome⟩ := hg (x, y) (List.mem_cons_self _ _)
      obtain ⟨r, dom2, hrev⟩ := revise_isSome dom hsome
      rw [ac3go, hrev]
      dsimp only
      cases r with
      | false =>
        rw [if_neg (by simp)]
        have hde : dom2 = dom := revise_false_eq hrev
        subst hde
        refine ih dom2 rest (goodArcs_tail hg) ?_
        simp only [List.length_cons] at hb
        omega
      | true =>
        rw [if_pos rfl]
        by_cases hempty : (dom2 x).length = 0
        · rw [if_pos hempty]
          rfl
        · rw [if_neg hempty]
          have hshrink : (dom2 x).length < (dom x).length := revise_true_shrink hrev
          have hframe : ∀ z, z ≠ x → dom2 z = dom z := fun z hz => revise_frame hrev hz
          have hT : total_size p dom2 < total_size p dom :=
            sum_update_lt hshrink hframe p.vars hndv hx
          have henq : ((((neighbors p x).filter (fun z => !(z == y))).map
              (fun z => (z, x))).reverse).length ≤ p.vars.length := by
            rw [List.length_reverse, List.length_map]
            calc ((neighbors p x).filter (fun z => !(z == y))).length
                ≤ (neighbors p x).length := List.length_filter_le _ _
              _ ≤ p.vars.length := by
                  unfold neighbors
                  exact List.length_filter_le _ _
          refine ih dom2 _ (goodArcs_append (enqueued_arcs_good hsym hx)
            (goodArcs_tail hg)) ?_
          rw [List.length_append]
          simp only [List.length_cons] at hb
          have hmul : (p.vars.length + 1) * (total_size p dom2 + 1)
              ≤ (p.vars.length + 1) * total_size p dom :=
            Nat.mul_le_mul_left _ (by omega)
          rw [Nat.mul_succ] at hmul
          omega

/-- A solution function agreeing at every crossing survives the whole `ac3`
worklist loop. -/
theorem ac3go_preserved {p : Puzzle} {f : Slot → Word} (hsym : overlapsSymm p)
    (hagree : ∀ u ∈ p.vars, ∀ v ∈ p.vars, ∀ i j, u ≠ v →
      p.overlaps u v = some (i, j) → charAt (f u) i = charAt (f v) j) :
    ∀ (fuel : Nat) (dom : Domains) (q : List (Slot × Slot)) (b : Bool) (dom2 : Domains),
      goodArcs p q → (∀ v ∈ p.vars, f v ∈ dom v) →
      ac3go p fuel dom q = some (b, dom2) → ∀ v ∈ p.vars, f v ∈ dom2 v := by
  intro fuel
  induction fuel with
  | zero =>
    intro dom q b dom2 _ hmem h
    cases q with
    | nil =>
      obtain ⟨-, hde⟩ : true = b ∧ dom = dom2 := by simpa [ac3go] using h
      exact hde ▸ hmem
    | cons ar rest => exact absurd h (by simp [ac3go])
  | succ fuel ih =>
    intro dom q b dom2 hg hmem h
    cases q with
    | nil =>
      obtain ⟨-, hde⟩ : true = b ∧ dom = dom2 := by simpa [ac3go] using h
      exact hde ▸ hmem
    | cons ar rest =>
      obtain ⟨x, y⟩ := ar
      obtain ⟨hx, hy, hne, hsome⟩ := hg (x, y) (List.mem_cons_self _ _)
      cases hrev : revise p dom x y with
      | none =>
        rw [ac3go, hrev] at h
        exact absurd h (by simp)
      | some rd =>
        obtain ⟨r, dom1⟩ := rd
        have hmem1 : ∀ v ∈ p.vars, f v ∈ dom1 v :=
          revise_sol_preserved hrev hmem hy
            (fun i j hov => hagree x hx y hy i j hne hov)
        rw [ac3go, hrev] at h
        dsimp only at h
        cases r with
        | false =>
          rw [if_neg (by simp)] at h
          exact ih dom1 rest b dom2 (goodArcs_tail hg) hmem1 h
        | true =>
          rw [if_pos rfl] at h
          by_cases hempty : (dom1 x).length = 0
          · rw [if_pos hempty] at h
            obtain ⟨-, hde⟩ : false = b ∧ dom1 = dom2 := by simpa using h
            exact hde ▸ hmem1
          · rw [if_neg hempty] at h
            exact ih dom1 _ b dom2
              (goodArcs_append (enqueued_arcs_good hsym hx)
                (goodArcs_tail hg)) hmem1 h

/- ### Fuel adequacy and completeness of the backtracking search -/

/-- A dict-like assignment over the puzzle's slots has at most one entry
per slot. -/
theorem assignment_size_le {p : Puzzle} {a : Assignment}
    (hnd : (keys a).Nodup) (hsub : ∀ pr ∈ a, pr.1 ∈ p.vars) :
    a.length ≤ p.vars.length := by
  have hkv : keys a ⊆ p.vars := by
    intro v hv
    obtain ⟨w, hw⟩ := mem_keys_iff.mp hv
    exact hsub (v, w) hw
  have h1 : (keys a).length ≤ p.vars.length := (List.subperm_of_subset hnd hkv).length_le
  have h3 : (keys a).length = a.length := List.length_map a Prod.fst
  omega

/-- With fuel exceeding the number of unassigned slots, the embedded
`backtrack` never exhausts its fuel (it answers like Python does). -/
theorem backtrack_ne_none {p : Puzzle} {dom : Domains} (hndv : p.vars.Nodup) :
    ∀ (n : Nat) (a : Assignment), (keys a).Nodup → (∀ pr ∈ a, pr.1 ∈ p.vars) →
      p.vars.length + 1 ≤ n + a.length → backtrack p dom n a ≠ none := by
  intro n
  induction n with
  | zero =>
    intro a hnd hsub hb
    exact absurd (assignment_size_le hnd hsub) (by omega)
  | succ n ih =>
    intro a hnd hsub hb
    rw [backtrack]
    by_cases hlen : a.length = p.vars.length
    · rw [if_pos hlen]
      simp
    · rw [if_neg hlen]
      obtain ⟨var, hsel, hvv, hvk, -⟩ := select_spec p dom a (exists_unassigned hndv hnd hsub hlen)
      rw [hsel]
      dsimp only
      have htv : ∀ ws, try_values p (backtrack p dom n) a var ws ≠ none := by
        intro ws
        induction ws with
        | nil => simp [try_values]
        | cons w ws ihw =>
          rw [try_values]
          by_cases hc : consistent p (a ++ [(var, w)]) = true
          · rw [if_pos hc]
            cases hbt : backtrack p dom n (a ++ [(var, w)]) with
            | none =>
              refine absurd hbt (ih (a ++ [(var, w)])
                (keys_ext_nodup hnd (hasKey_eq_false_iff.mp hvk))
                (keys_ext_sub hsub hvv) ?_)
              rw [List.length_append]
              simp only [List.length_singleton]
              omega
            | some o =>
              cases o with
              | none =>
                dsimp only
                exact ihw
              | some r =>
                dsimp only
                simp
          · rw [if_neg hc]
            exact ihw
      exact htv _

/-- An assignment that agrees with a solution function is consistent. -/
theorem consistent_of_solution {p : Puzzle} {f : Slot → Word} {a : Assignment}
    (hs : IsSolutionFn p f) (hnd : (keys a).Nodup) (hsub : ∀ pr ∈ a, pr.1 ∈ p.vars)
    (hagree : ∀ pr ∈ a, pr.2 = f pr.1) : consistent p a = true := by
  obtain ⟨-, hfl, hfd, hfc⟩ := hs
  rw [consistent_iff hnd hsub]
  refine ⟨?_, ?_, ?_⟩
  · intro pr1 h1 pr2 h2 hne
    rw [hagree pr1 h1, hagree pr2 h2]
    exact hfd pr1.1 (hsub pr1 h1) pr2.1 (hsub pr2 h2) hne
  · intro pr hpr
    rw [hagree pr hpr, hfl pr.1 (hsub pr hpr)]
  · intro pr1 h1 pr2 h2 i j hne hov
    rw [hagree pr1 h1, hagree pr2 h2]
    exact hfc pr1.1 (hsub pr1 h1) pr2.1 (hsub pr2 h2) i j hne hov

/-- Completeness of `backtrack`: when the domain store still carries a full
solution and the assignment so far agrees with it, the search succeeds. -/
theorem backtrack_complete {p : Puzzle} {dom : Domains} {f : Slot → Word}
    (hndv : p.vars.Nodup) (hs : IsSolutionFn p f)
    (hmem : ∀ v ∈ p.vars, f v ∈ dom v) :
    ∀ (n : Nat) (a : Assignment), (keys a).Nodup → (∀ pr ∈ a, pr.1 ∈ p.vars) →
      (∀ pr ∈ a, pr.2 = f pr.1) → p.vars.length + 1 ≤ n + a.length →
      ∃ r, backtrack p dom n a = some (some r) := by
  intro n
  induction n with
  | zero =>
    intro a hnd hsub _ hb
    exact absurd (assignment_size_le hnd hsub) (by omega)
  | succ n ih =>
    intro a hnd hsub hagree hb
    by_cases hlen : a.length = p.vars.length
    · refine ⟨a, ?_⟩
      rw [backtrack, if_pos hlen]
    · obtain ⟨var, hsel, hvv, hvk, -⟩ :=
        select_spec p dom a (exists_unassigned hndv hnd hsub hlen)
      have hvkeys : var ∉ keys a := hasKey_eq_false_iff.mp hvk
      have hext : ∀ w, (keys (a ++ [(var, w)])).Nodup
          ∧ (∀ pr ∈ a ++ [(var, w)], pr.1 ∈ p.vars) := by
        intro w
        exact ⟨keys_ext_nodup hnd hvkeys, keys_ext_sub hsub hvv⟩
      have hagree_ext : ∀ pr ∈ a ++ [(var, f var)], pr.2 = f pr.1 := by
        intro pr hpr
        rcases List.mem_append.mp hpr with hmem' | hmem'
        · exact hagree pr hmem'
        · rw [List.mem_singleton.mp hmem']
      have hbound_ext : p.vars.length + 1 ≤ n + (a ++ [(var, f var)]).length := by
        rw [List.length_append]
        simp only [List.length_singleton]
        omega
      have hfin : ∀ ws, f var ∈ ws →
          ∃ r, try_values p (backtrack p dom n) a var ws = some (some r) := by
        intro ws
        induction ws with
        | nil =>
          intro hmem'
          exact absurd hmem' (List.not_mem_nil _)
        | cons w ws ihw =>
          intro hmem'
          by_cases hc : consistent p (a ++ [(var, w)]) = true
          · cases hbt : backtrack p dom n (a ++ [(var, w)]) with
            | none =>
              refine absurd hbt (backtrack_ne_none hndv n (a ++ [(var, w)])
                (hext w).1 (hext w).2 ?_)
              rw [List.length_append]
              simp only [List.length_singleton]
              omega
            | some o =>
              cases o with
              | none =>
                have hwne : w ≠ f var := by
                  intro heq
                  obtain ⟨r, hr⟩ := ih (a ++ [(var, f var)]) (hext (f var)).1
                    (hext (f var)).2 hagree_ext hbound_ext
                  rw [heq] at hbt
                  rw [hbt] at hr
                  exact absurd hr (by simp)
                obtain ⟨r, hr⟩ := ihw (by
                  rcases List.mem_cons.mp hmem' with heq | hmem''
                  · exact absurd heq.symm hwne
                  · exact hmem'')
                refine ⟨r, ?_⟩
                rw [try_values, if_pos hc, hbt]
                exact hr
              | some r =>
                refine ⟨r, ?_⟩
                rw [try_values, if_pos hc, hbt]
          · have hwne : w ≠ f var := by
              intro heq
              subst heq
              exact hc (consistent_of_solution hs (hext (f var)).1 (hext (f var)).2
                hagree_ext)
            obtain ⟨r, hr⟩ := ihw (by
              rcases List.mem_cons.mp hmem' with heq | hmem''
              · exact absurd heq.symm hwne
              · exact hmem'')
            refine ⟨r, ?_⟩
            rw [try_values, if_neg hc]
            exact hr
      have hfvmem : f var ∈ order_domain_values p dom var a := by
        unfold order_domain_values
        exact (sortLe_perm _ _).mem_iff.mpr (hmem var hvv)
      obtain ⟨r, hr⟩ := hfin (order_domain_values p dom var a) hfvmem
      refine ⟨r, ?_⟩
      rw [backtrack, if_neg hlen, hsel]
      exact hr

/-- A complete consistent assignment induces a solution function. -/
theorem solution_fn_of_assignment {p : Puzzle} {s : Assignment} (hndv : p.vars.Nodup)
    (hperm : List.Perm (keys s) p.vars) (hwords : ∀ pr ∈ s, pr.2 ∈ p.words)
    (hcons : consistent p s = true) :
    ∃ f : Slot → Word, IsSolutionFn p f := by
  have hnd : (keys s).Nodup := hperm.nodup_iff.mpr hndv
  have hsub : ∀ pr ∈ s, pr.1 ∈ p.vars := by
    intro pr hpr
    exact hperm.mem_iff.mp (List.mem_map.mpr ⟨pr, hpr, rfl⟩)
  obtain ⟨hdist, hlen, hcross⟩ := (consistent_iff hnd hsub).mp hcons
  refine ⟨fun v => (lookupWord s v).getD [], ?_⟩
  have hbind : ∀ v ∈ p.vars, ∃ w, (v, w) ∈ s ∧ (lookupWord s v).getD [] = w := by
    intro v hv
    obtain ⟨w, hw⟩ := mem_keys_iff.mp (hperm.mem_iff.mpr hv)
    exact ⟨w, hw, by rw [keys_nodup_lookup hnd hw]; rfl⟩
  refine ⟨?_, ?_, ?_, ?_⟩
  · intro v hv
    obtain ⟨w, hw, hfw⟩ := hbind v hv
    dsimp only
    rw [hfw]
    exact hwords (v, w) hw
  · intro v hv
    obtain ⟨w, hw, hfw⟩ := hbind v hv
    dsimp only
    rw [hfw]
    exact (hlen (v, w) hw).symm
  · intro u hu v hv hne
    obtain ⟨wu, hwu, hfu⟩ := hbind u hu
    obtain ⟨wv, hwv, hfv⟩ := hbind v hv
    dsimp only
    rw [hfu, hfv]
    exact hdist (u, wu) hwu (v, wv) hwv hne
  · intro u hu v hv i j hne hov
    obtain ⟨wu, hwu, hfu⟩ := hbind u hu
    obtain ⟨wv, hwv, hfv⟩ := hbind v hv
    dsimp only
    rw [hfu, hfv]
    exact hcross (u, wu) hwu (v, wv) hwv i j hne hov

/- ### Claim C2 -/

/-- C2: for a well-formed puzzle (duplicate-free slot list, symmetric
crossing map) whose original domains (the full word list for every slot)
admit a complete assignment accepted by `consistent`, `solve` returns some
complete satisfying assignment rather than the no-solution result. -/
theorem c2_solve_complete (p : Puzzle) (hndv : p.vars.Nodup) (hsym : overlapsSymm p)
    (hsat : ∃ s : Assignment, List.Perm (keys s) p.vars
        ∧ (∀ pr ∈ s, pr.2 ∈ p.words) ∧ consistent p s = true) :
    ∃ a, solve p = some (some a) ∧ consistent p a = true
      ∧ ∀ v ∈ p.vars, ∃ w, (v, w) ∈ a := by
  obtain ⟨s, hperm, hwords, hcons⟩ := hsat
  obtain ⟨f, hsol⟩ := solution_fn_of_assignment hndv hperm hwords hcons
  obtain ⟨hfw, hfl, hfd, hfc⟩ := hsol
  have hmem1 : ∀ v ∈ p.vars,
      f v ∈ enforce_node_consistency (initial_domains p) v := by
    intro v hv
    unfold enforce_node_consistency initial_domains
    exact List.mem_filter.mpr ⟨hfw v hv, by simp [hfl v hv]⟩
  have hsome : (ac3 p (ac3_fuel p (enforce_node_consistency (initial_domains p)))
      (enforce_node_consistency (initial_domains p))).isSome = true := by
    unfold ac3 ac3_fuel
    refine ac3go_complete hndv hsym _ _ _ (initial_arcs_good p) ?_
    rw [List.length_reverse]
    omega
  obtain ⟨⟨b, dom2⟩, hac⟩ := Option.isSome_iff_exists.mp hsome
  have hmem2 : ∀ v ∈ p.vars, f v ∈ dom2 v :=
    ac3go_preserved hsym hfc _ _ _ _ _ (initial_arcs_good p) hmem1 hac
  obtain ⟨r, hbt⟩ := backtrack_complete hndv ⟨hfw, hfl, hfd, hfc⟩ hmem2
    (p.vars.length + 1) [] (by simp [keys]) (by simp) (by simp) (by simp)
  have hsound := backtrack_sound hndv (p.vars.length + 1) [] r
    (by simp [keys]) (by simp) (consistent_nil p) hbt
  obtain ⟨hconr, hndk, hsubk, hlenr⟩ := hsound
  refine ⟨r, ?_, hconr, ?_⟩
  · unfold solve solveTrace
    rw [hac]
    exact hbt
  · have hkeysub : keys r ⊆ p.vars := by
      intro v hv
      obtain ⟨w, hw⟩ := mem_keys_iff.mp hv
      exact hsubk (v, w) hw
    have hpermr : List.Perm (keys r) p.vars :=
      (List.subperm_of_subset hndk hkeysub).perm_of_length_le
        (by
          have h3 : (keys r).length = r.length := List.length_map r Prod.fst
          omega)
    intro v hv
    exact mem_keys_iff.mp (hpermr.mem_iff.mpr hv)

/-- C2 witness: the satisfiable one-slot puzzle `Pcat` with the satisfying
assignment {slot ↦ cat}. -/
theorem c2_witness :
    Pcat.vars.Nodup
      ∧ overlapsSymm Pcat
      ∧ (∃ s : Assignment, List.Perm (keys s) Pcat.vars
          ∧ (∀ pr ∈ s, pr.2 ∈ Pcat.words) ∧ consistent Pcat s = true)
      ∧ (∃ a, solve Pcat = some (some a) ∧ consistent Pcat a = true
          ∧ ∀ v ∈ Pcat.vars, ∃ w, (v, w) ∈ a) := by
  have hsym : overlapsSymm Pcat := fun u v i j h => Option.noConfusion h
  have hsat : ∃ s : Assignment, List.Perm (keys s) Pcat.vars
      ∧ (∀ pr ∈ s, pr.2 ∈ Pcat.words) ∧ consistent Pcat s = true :=
    ⟨[(vC, ['c', 'a', 't'])], by decide, by decide, by decide⟩
  exact ⟨by decide, hsym, hsat, c2_solve_complete Pcat (by decide) hsym hsat⟩

end CrosswordCSP
